import Mathlib

/-!
Verification of the MMIO accelerator handshake pattern from
`Pynq-Z1/notebooks/examples/overlay_integration.ipynb`.

The notebook defines a class `my_new_accelerator` over a memory-mapped
register window (`pynq.MMIO`): `__init__` writes `0x0` to the command
offset, `load_data` writes the input sequence word by word into the
input region and records its length, and `process` writes `0x1` to the
command offset, busy-polls the acknowledge offset until it reads `1`,
reads back `array_length` words from the output region, resets the
acknowledge register to `0` and returns the results.

The register window is embedded as a total function from byte offsets
to 32-bit values (`Mem`); the class becomes a structure carrying the
window contents and the stored `array_length`.  The unbounded busy-wait
loop is embedded with explicit fuel: `process fuel s = none` means the
loop has not exited within `fuel` polls, and termination of the real
loop corresponds to `∃ fuel, (process fuel s).isSome`.
-/

/-- Base address of the register window (cell 6 of the notebook). -/
def BASE_ADDRESS : Nat := 0x40000000

/-- Length of the register window in bytes. -/
def ADDRESS_LENGTH : Nat := 0x1000

/-- Byte offset of the command register. -/
def CMD_OFFSET : Nat := 0x800

/-- Byte offset of the acknowledge register. -/
def ACK_OFFSET : Nat := 0x804

/-- Byte offset of the input-data region. -/
def INPUT_DATA_OFFSET : Nat := 0x0

/-- Byte offset of the output-data region. -/
def OUTPUT_DATA_OFFSET : Nat := 0x400

/-- Contents of the register window: a value for every byte offset.
All accesses in the notebook are word accesses at fixed byte offsets,
so the window is keyed directly by the byte offset used in the call. -/
abbrev Mem : Type := Nat → Nat

/-- `MMIO.read`: read the word at a byte offset. -/
def mread (m : Mem) (off : Nat) : Nat := m off

/-- `MMIO.write`: write a word at a byte offset. -/
def mwrite (m : Mem) (off v : Nat) : Mem :=
  fun o => if o = off then v else m o

/-- The state of a `my_new_accelerator` instance: the register window it
is mapped onto, and the stored `array_length` attribute. -/
structure my_new_accelerator where
  mem : Mem
  array_length : Nat

/-- `__init__`: set `array_length` to `0` and write `0x0` to the command
offset, starting from whatever the register window held before. -/
def init (m : Mem) : my_new_accelerator :=
  { mem := mwrite m CMD_OFFSET 0x0, array_length := 0 }

/-- The `for i in range(n): write(base + i * 4, data[i])` loop shared by
`load_data` (with `base = INPUT_DATA_OFFSET`) and the notebook's device
simulation (with `base = OUTPUT_DATA_OFFSET`); `j` is the index of the
next element to write. -/
def writeSeq (m : Mem) (base : Nat) : List Nat → Nat → Mem
  | [], _ => m
  | v :: rest, j => writeSeq (mwrite m (base + j * 4) v) base rest (j + 1)

/-- `load_data`: record `array_length = len(input_data)` and write each
element to `INPUT_DATA_OFFSET + i * 4` in increasing index order. -/
def load_data (s : my_new_accelerator) (input_data : List Nat) : my_new_accelerator :=
  { mem := writeSeq s.mem INPUT_DATA_OFFSET input_data 0,
    array_length := input_data.length }

/-- The busy-wait loop `while read(ACK_OFFSET) != 0x1: pass`, with fuel
bounding the number of polls: `true` means the loop exited within `fuel`
polls.  The window is not modified between polls (single host thread). -/
def pollLoop (m : Mem) : Nat → Bool
  | 0 => false
  | fuel + 1 => if mread m ACK_OFFSET ≠ 0x1 then pollLoop m fuel else true

/-- The drain loop of `process`: read `n` words from
`OUTPUT_DATA_OFFSET + i * 4` into a fresh list, preserving index order. -/
def drain (m : Mem) (n : Nat) : List Nat :=
  (List.range n).map fun i => mread m (OUTPUT_DATA_OFFSET + i * 4)

/-- `process`: write `0x1` to the command offset, busy-poll the
acknowledge offset, read back `array_length` output words, reset the
acknowledge register to `0x0` and return the output list.  `none` means
the poll loop did not exit within `fuel` polls. -/
def process (fuel : Nat) (s : my_new_accelerator) :
    Option (List Nat × my_new_accelerator) :=
  let m1 := mwrite s.mem CMD_OFFSET 0x1
  if pollLoop m1 fuel then
    some (drain m1 s.array_length,
      { mem := mwrite m1 ACK_OFFSET 0x0, array_length := s.array_length })
  else
    none

/-- The busy-wait loop against an external environment: `ack t` is the
value the acknowledge register holds at the `t`-th poll (a device may
set it at any time).  Returns the index of the first successful poll,
or `none` if the loop has not exited within `fuel` polls. -/
def pollEnv (ack : Nat → Nat) : Nat → Nat → Option Nat
  | 0, _ => none
  | fuel + 1, t => if ack t ≠ 0x1 then pollEnv ack fuel (t + 1) else some t

/-- The notebook's device simulation (cell 10): write a value to
`OUTPUT_DATA_OFFSET + i * 4` for each output element in index order,
then write `1` to the acknowledge offset.  The notebook instantiates
`out` with `input_data[i] + 1`. -/
def deviceSim (s : my_new_accelerator) (out : List Nat) : my_new_accelerator :=
  { mem := mwrite (writeSeq s.mem OUTPUT_DATA_OFFSET out 0) ACK_OFFSET 1,
    array_length := s.array_length }

theorem mread_mwrite_self (m : Mem) (off v : Nat) :
    mread (mwrite m off v) off = v := by
  simp [mread, mwrite]

theorem mread_mwrite_of_ne (m : Mem) (off v o : Nat) (h : o ≠ off) :
    mread (mwrite m off v) o = m o := by
  simp [mread, mwrite, h]

theorem writeSeq_frame (base : Nat) (l : List Nat) :
    ∀ (j : Nat) (m : Mem) (off : Nat),
      (∀ i, i < l.length → off ≠ base + (j + i) * 4) →
      writeSeq m base l j off = m off := by
  induction l with
  | nil => intro j m off _; rfl
  | cons v rest ih =>
    intro j m off h
    have hrest : ∀ i, i < rest.length → off ≠ base + (j + 1 + i) * 4 := by
      intro i hi
      have := h (i + 1) (by simpa using Nat.succ_lt_succ hi)
      have harith : j + (i + 1) = j + 1 + i := by omega
      rw [harith] at this
      exact this
    have h0 : off ≠ base + j * 4 := by
      have := h 0 (by simp)
      simpa using this
    calc writeSeq m base (v :: rest) j off
        = writeSeq (mwrite m (base + j * 4) v) base rest (j + 1) off := rfl
      _ = (mwrite m (base + j * 4) v) off := ih (j + 1) _ off hrest
      _ = m off := by simp [mwrite, h0]

theorem writeSeq_get (base : Nat) (l : List Nat) :
    ∀ (j i : Nat) (m : Mem), i < l.length →
      writeSeq m base l j (base + (j + i) * 4) = l.getD i 0 := by
  induction l with
  | nil => intro j i m hi; simp at hi
  | cons v rest ih =>
    intro j i m hi
    cases i with
    | zero =>
      have hframe : ∀ i, i < rest.length →
          base + (j + 0) * 4 ≠ base + (j + 1 + i) * 4 := by
        intro i _
        omega
      calc writeSeq m base (v :: rest) j (base + (j + 0) * 4)
          = writeSeq (mwrite m (base + j * 4) v) base rest (j + 1)
              (base + (j + 0) * 4) := rfl
        _ = (mwrite m (base + j * 4) v) (base + (j + 0) * 4) :=
            writeSeq_frame base rest (j + 1) _ _ hframe
        _ = v := by simp [mwrite]
        _ = (v :: rest).getD 0 0 := rfl
    | succ i =>
      have harith : base + (j + (i + 1)) * 4 = base + (j + 1 + i) * 4 := by
        omega
      have hi' : i < rest.length := by simpa using Nat.lt_of_succ_lt_succ hi
      calc writeSeq m base (v :: rest) j (base + (j + (i + 1)) * 4)
          = writeSeq (mwrite m (base + j * 4) v) base rest (j + 1)
              (base + (j + (i + 1)) * 4) := rfl
        _ = writeSeq (mwrite m (base + j * 4) v) base rest (j + 1)
              (base + (j + 1 + i) * 4) := by rw [harith]
        _ = rest.getD i 0 := ih (j + 1) i _ hi'
        _ = (v :: rest).getD (i + 1) 0 := rfl

theorem pollLoop_eq_true_iff (m : Mem) (fuel : Nat) :
    pollLoop m fuel = true ↔ (1 ≤ fuel ∧ mread m ACK_OFFSET = 1) := by
  induction fuel with
  | zero => simp [pollLoop]
  | succ f ih =>
    by_cases h : mread m ACK_OFFSET = 1
    · simp [pollLoop, h]
    · simp [pollLoop, h, ih]

theorem ack_ne_cmd : ACK_OFFSET ≠ CMD_OFFSET := by decide

/-- After the initial command write of `process`, the acknowledge
register still holds what it held before the call. -/
theorem mread_after_cmd (s : my_new_accelerator) :
    mread (mwrite s.mem CMD_OFFSET 0x1) ACK_OFFSET = mread s.mem ACK_OFFSET :=
  mread_mwrite_of_ne _ _ _ _ ack_ne_cmd

/-- `process` returns exactly when the acknowledge register reads `1`
when it is polled, and in that case one poll suffices. -/
theorem process_eq_some (s : my_new_accelerator) (fuel : Nat)
    (hfuel : 1 ≤ fuel) (hack : mread s.mem ACK_OFFSET = 1) :
    process fuel s =
      some (drain (mwrite s.mem CMD_OFFSET 0x1) s.array_length,
        { mem := mwrite (mwrite s.mem CMD_OFFSET 0x1) ACK_OFFSET 0x0,
          array_length := s.array_length }) := by
  have hpoll : pollLoop (mwrite s.mem CMD_OFFSET 0x1) fuel = true := by
    rw [pollLoop_eq_true_iff]
    exact ⟨hfuel, by rw [mread_after_cmd]; exact hack⟩
  simp [process, hpoll]

/-- If the acknowledge register does not read `1`, no amount of fuel
makes `process` return: the busy-wait loop never exits. -/
theorem process_eq_none (s : my_new_accelerator) (fuel : Nat)
    (hack : mread s.mem ACK_OFFSET ≠ 1) :
    process fuel s = none := by
  have hpoll : pollLoop (mwrite s.mem CMD_OFFSET 0x1) fuel = false := by
    rw [Bool.eq_false_iff]
    intro hc
    rw [pollLoop_eq_true_iff, mread_after_cmd] at hc
    exact hack hc.2
  simp [process, hpoll]

theorem process_isSome_iff (s : my_new_accelerator) :
    (∃ fuel, (process fuel s).isSome) ↔ mread s.mem ACK_OFFSET = 1 := by
  constructor
  · rintro ⟨fuel, hf⟩
    by_contra hack
    rw [process_eq_none s fuel hack] at hf
    simp at hf
  · intro hack
    exact ⟨1, by rw [process_eq_some s 1 le_rfl hack]; rfl⟩

theorem pollEnv_exists_of_isSome (ack : Nat → Nat) :
    ∀ (fuel t : Nat), (pollEnv ack fuel t).isSome → ∃ u, ack u = 1 := by
  intro fuel
  induction fuel with
  | zero => intro t h; simp [pollEnv] at h
  | succ f ih =>
    intro t h
    by_cases hc : ack t = 1
    · exact ⟨t, hc⟩
    · rw [pollEnv, if_pos hc] at h
      exact ih (t + 1) h

theorem pollEnv_isSome_of_ack (ack : Nat → Nat) :
    ∀ (d t : Nat), ack (t + d) = 1 → (pollEnv ack (d + 1) t).isSome := by
  intro d
  induction d with
  | zero =>
    intro t h
    simp only [Nat.add_zero] at h
    simp [pollEnv, h]
  | succ d ih =>
    intro t h
    by_cases hc : ack t = 1
    · simp [pollEnv, hc]
    · rw [pollEnv, if_pos hc]
      have : ack (t + 1 + d) = 1 := by
        have harith : t + 1 + d = t + (d + 1) := by omega
        rw [harith]; exact h
      exact ih (t + 1) this

/-- Full characterisation: the environment-aware busy-wait loop exits
within some fuel bound exactly when some poll of the acknowledge
register reads `1`. -/
theorem pollEnv_isSome_iff (ack : Nat → Nat) :
    (∃ fuel, (pollEnv ack fuel 0).isSome) ↔ (∃ t, ack t = 1) := by
  constructor
  · rintro ⟨fuel, h⟩
    exact pollEnv_exists_of_isSome ack fuel 0 h
  · rintro ⟨t, h⟩
    exact ⟨t + 1, pollEnv_isSome_of_ack ack t 0 (by simpa using h)⟩

theorem drain_eq_of_reads (m : Mem) (l : List Nat)
    (h : ∀ i, i < l.length → mread m (OUTPUT_DATA_OFFSET + i * 4) = l.getD i 0) :
    drain m l.length = l := by
  apply List.ext_getElem
  · simp [drain]
  · intro i h1 h2
    have hl : i < l.length := h2
    simp only [drain, List.getElem_map, List.getElem_range]
    rw [h i hl, List.getD_eq_getElem l 0 hl]

theorem cmd_ne_ack : CMD_OFFSET ≠ ACK_OFFSET := by decide

/-- Whenever `process` returns, the resulting state is the input state
with exactly two register writes applied: `0x1` to the command offset
and then `0x0` to the acknowledge offset. -/
theorem process_some_state (fuel : Nat) (s : my_new_accelerator)
    (out : List Nat) (s' : my_new_accelerator)
    (h : process fuel s = some (out, s')) :
    s' = { mem := mwrite (mwrite s.mem CMD_OFFSET 0x1) ACK_OFFSET 0x0,
           array_length := s.array_length } := by
  cases fuel with
  | zero => simp [process, pollLoop] at h
  | succ f =>
    have hack : mread s.mem ACK_OFFSET = 1 :=
      (process_isSome_iff s).1 ⟨f + 1, by rw [h]; rfl⟩
    rw [process_eq_some s (f + 1) (Nat.succ_le_succ (Nat.zero_le f)) hack] at h
    injection h with h1
    exact (congrArg Prod.snd h1).symm

/-- C2: whenever `process` returns, the last value it wrote to the
acknowledge offset is the reset value `0`, so the acknowledge register
reads `0` in the state it leaves behind, for every stored
`array_length` and every register-window contents. -/
theorem c2_process_resets_ack (s : my_new_accelerator) (fuel : Nat)
    (out : List Nat) (s' : my_new_accelerator)
    (h : process fuel s = some (out, s')) :
    mread s'.mem ACK_OFFSET = 0 := by
  rw [process_some_state fuel s out s' h]
  exact mread_mwrite_self _ _ _

theorem c2_witness :
    mread (mwrite (mwrite (fun _ => 1) CMD_OFFSET 0x1) ACK_OFFSET 0x0) ACK_OFFSET = 0 :=
  c2_process_resets_ack ⟨fun _ => 1, 0⟩ 1 []
    ⟨mwrite (mwrite (fun _ => 1) CMD_OFFSET 0x1) ACK_OFFSET 0x0, 0⟩ rfl

/-- C3: `process` writes `0x1` to the command offset and then busy-polls
the acknowledge offset with no timeout: with the window otherwise
unchanged it terminates for some fuel bound exactly when the acknowledge
register reads `1`; against an arbitrary device environment the poll
loop exits within some fuel bound exactly when some poll reads `1`; and
when the acknowledge register never reads `1` every fuel bound yields
`none` — the loop never exits and no timeout error value exists. -/
theorem c3_busy_wait_no_timeout (s : my_new_accelerator) (ack : Nat → Nat) :
    ((∃ fuel, (process fuel s).isSome) ↔ mread s.mem ACK_OFFSET = 1) ∧
    ((∃ fuel, (pollEnv ack fuel 0).isSome) ↔ (∃ t, ack t = 1)) ∧
    (mread s.mem ACK_OFFSET ≠ 1 → ∀ fuel, process fuel s = none) :=
  ⟨process_isSome_iff s, pollEnv_isSome_iff ack,
    fun h fuel => process_eq_none s fuel h⟩

theorem c3_witness : process 5 ⟨fun _ => 0, 0⟩ = none :=
  ((c3_busy_wait_no_timeout ⟨fun _ => 0, 0⟩ (fun _ => 0)).2.2 (by decide)) 5

/-- C6: construction always writes `0x0` to the command offset, so the
command register reads `0x0` afterwards regardless of the prior window
contents, and no other offset is written by construction. -/
theorem c6_init_idle (m : Mem) :
    mread (init m).mem CMD_OFFSET = 0x0 ∧
    (∀ off, off ≠ CMD_OFFSET → (init m).mem off = m off) := by
  constructor
  · exact mread_mwrite_self _ _ _
  · intro off h
    simp [init, mwrite, h]

theorem c6_witness :
    mread (init (fun _ => 7)).mem CMD_OFFSET = 0x0 ∧
    (init (fun _ => 7)).mem 0 = 7 :=
  ⟨(c6_init_idle (fun _ => 7)).1, (c6_init_idle (fun _ => 7)).2 0 (by decide)⟩

/-- C7: a stored `array_length` of `0` arises both from construction and
from loading the empty sequence, and `process` on such a state (with the
acknowledge register already reading `1`) returns the empty sequence
normally, leaving only the command write and acknowledge reset behind. -/
theorem c7_zero_length_process_returns_empty (m : Mem)
    (s : my_new_accelerator) (fuel : Nat) (hlen : s.array_length = 0)
    (hack : mread s.mem ACK_OFFSET = 1) (hfuel : 1 ≤ fuel) :
    (init m).array_length = 0 ∧ (load_data s []).array_length = 0 ∧
    process fuel s = some ([],
      { mem := mwrite (mwrite s.mem CMD_OFFSET 0x1) ACK_OFFSET 0x0,
        array_length := s.array_length }) := by
  refine ⟨rfl, rfl, ?_⟩
  rw [process_eq_some s fuel hfuel hack, hlen]
  rfl

theorem c7_witness :
    (init (fun _ => 0)).array_length = 0 ∧
    (load_data ⟨fun _ => 1, 0⟩ []).array_length = 0 ∧
    process 1 (my_new_accelerator.mk (fun _ => 1) 0) = some ([],
      { mem := mwrite (mwrite (fun _ => 1) CMD_OFFSET 0x1) ACK_OFFSET 0x0,
        array_length := 0 }) :=
  c7_zero_length_process_returns_empty (fun _ => 0) ⟨fun _ => 1, 0⟩ 1
    rfl (by decide) (by decide)

/-- C9: after `process` returns, the command register reads `0x1`
(PROCESS), never `0x0`: `process` writes `0x1` there and nothing resets
it; construction is the operation that writes `0x0` to the command
offset; and an in-bounds `load_data` (at most 512 elements, so that no
input write reaches the command offset) leaves the command register
untouched. -/
theorem c9_command_reads_process_after_return :
    (∀ (fuel : Nat) (s : my_new_accelerator) (out : List Nat)
      (s' : my_new_accelerator), process fuel s = some (out, s') →
      mread s'.mem CMD_OFFSET = 0x1) ∧
    (∀ m : Mem, mread (init m).mem CMD_OFFSET = 0x0) ∧
    (∀ (s : my_new_accelerator) (data : List Nat), data.length ≤ 512 →
      mread (load_data s data).mem CMD_OFFSET = mread s.mem CMD_OFFSET) := by
  refine ⟨?_, ?_, ?_⟩
  · intro fuel s out s' h
    rw [process_some_state fuel s out s' h]
    show mread (mwrite (mwrite s.mem CMD_OFFSET 0x1) ACK_OFFSET 0x0) CMD_OFFSET = 0x1
    rw [mread_mwrite_of_ne _ _ _ _ cmd_ne_ack]
    exact mread_mwrite_self _ _ _
  · intro m
    exact mread_mwrite_self _ _ _
  · intro s data hlen
    show writeSeq s.mem INPUT_DATA_OFFSET data 0 CMD_OFFSET = s.mem CMD_OFFSET
    apply writeSeq_frame
    intro i hi
    have : i < 512 := by omega
    simp only [CMD_OFFSET, INPUT_DATA_OFFSET]
    omega

theorem c9_witness :
    mread (my_new_accelerator.mk
      (mwrite (mwrite (fun _ => 1) CMD_OFFSET 0x1) ACK_OFFSET 0x0) 0).mem
      CMD_OFFSET = 0x1 ∧
    mread (load_data ⟨fun _ => 9, 0⟩ [3]).mem CMD_OFFSET =
      mread (my_new_accelerator.mk (fun _ => 9) 0).mem CMD_OFFSET :=
  ⟨c9_command_reads_process_after_return.1 1 ⟨fun _ => 1, 0⟩ [] _ rfl,
   c9_command_reads_process_after_return.2.2 ⟨fun _ => 9, 0⟩ [3] (by decide)⟩

/-- C10: `process` with stored `array_length = 0` is not side-effect
free: if the acknowledge register never reads `1` it returns for no fuel
bound (it blocks), and otherwise it still writes `0x1` to the command
offset and resets the acknowledge offset to `0x0` before returning the
empty list — those two register writes are its only memory effect. -/
theorem c10_process_empty_still_writes (s : my_new_accelerator)
    (fuel : Nat) (hlen : s.array_length = 0) :
    (mread s.mem ACK_OFFSET ≠ 1 → process fuel s = none) ∧
    (1 ≤ fuel → mread s.mem ACK_OFFSET = 1 →
      process fuel s = some ([],
        { mem := mwrite (mwrite s.mem CMD_OFFSET 0x1) ACK_OFFSET 0x0,
          array_length := 0 }) ∧
      mread (mwrite (mwrite s.mem CMD_OFFSET 0x1) ACK_OFFSET 0x0) CMD_OFFSET = 0x1 ∧
      mread (mwrite (mwrite s.mem CMD_OFFSET 0x1) ACK_OFFSET 0x0) ACK_OFFSET = 0x0 ∧
      (∀ off, off ≠ CMD_OFFSET → off ≠ ACK_OFFSET →
        (mwrite (mwrite s.mem CMD_OFFSET 0x1) ACK_OFFSET 0x0) off = s.mem off)) := by
  constructor
  · exact process_eq_none s fuel
  · intro hfuel hack
    refine ⟨?_, ?_, mread_mwrite_self _ _ _, ?_⟩
    · rw [process_eq_some s fuel hfuel hack, hlen]
      rfl
    · rw [mread_mwrite_of_ne _ _ _ _ cmd_ne_ack]
      exact mread_mwrite_self _ _ _
    · intro off h1 h2
      simp [mwrite, h1, h2]

theorem c10_witness :
    process 2 (my_new_accelerator.mk (fun _ => 0) 0) = none ∧
    process 1 (my_new_accelerator.mk (fun _ => 1) 0) = some ([],
      { mem := mwrite (mwrite (fun _ => 1) CMD_OFFSET 0x1) ACK_OFFSET 0x0,
        array_length := 0 }) ∧
    (mwrite (mwrite (fun _ => 1) CMD_OFFSET 0x1) ACK_OFFSET 0x0) 0x400 = 1 :=
  ⟨(c10_process_empty_still_writes ⟨fun _ => 0, 0⟩ 2 rfl).1 (by decide),
   ((c10_process_empty_still_writes ⟨fun _ => 1, 0⟩ 1 rfl).2 (by decide) (by decide)).1,
   ((c10_process_empty_still_writes ⟨fun _ => 1, 0⟩ 1 rfl).2 (by decide)
      (by decide)).2.2.2 0x400 (by decide) (by decide)⟩

/-- C5: `load_data` checks no bounds: every element is written at
`INPUT_DATA_OFFSET + i * 4` whatever the length, so an input of length
at least 257 writes element 256 at the start of the output region and
an input of length at least 513 writes element 512 over the command
offset, with no error raised. -/
theorem c5_load_no_bounds_check (s : my_new_accelerator) (data : List Nat) :
    (∀ i, i < data.length →
      (load_data s data).mem (INPUT_DATA_OFFSET + i * 4) = data.getD i 0) ∧
    (513 ≤ data.length → (load_data s data).mem CMD_OFFSET = data.getD 512 0) ∧
    (257 ≤ data.length →
      (load_data s data).mem OUTPUT_DATA_OFFSET = data.getD 256 0) := by
  have hget : ∀ i, i < data.length →
      (load_data s data).mem (INPUT_DATA_OFFSET + i * 4) = data.getD i 0 := by
    intro i hi
    show writeSeq s.mem INPUT_DATA_OFFSET data 0 (INPUT_DATA_OFFSET + i * 4) =
      data.getD i 0
    simpa using writeSeq_get INPUT_DATA_OFFSET data 0 i s.mem hi
  refine ⟨hget, ?_, ?_⟩
  · intro h
    have h512 : (512 : Nat) < data.length := by omega
    have hv := hget 512 h512
    have hoff : INPUT_DATA_OFFSET + 512 * 4 = CMD_OFFSET := by decide
    rw [hoff] at hv
    exact hv
  · intro h
    have h256 : (256 : Nat) < data.length := by omega
    have hv := hget 256 h256
    have hoff : INPUT_DATA_OFFSET + 256 * 4 = OUTPUT_DATA_OFFSET := by decide
    rw [hoff] at hv
    exact hv

set_option maxRecDepth 100000 in
theorem c5_witness :
    (load_data (init (fun _ => 0)) (List.range 513)).mem CMD_OFFSET = 512 ∧
    (load_data (init (fun _ => 0)) (List.range 513)).mem OUTPUT_DATA_OFFSET = 256 ∧
    (load_data (init (fun _ => 0)) (List.range 513)).mem
      (INPUT_DATA_OFFSET + 5 * 4) = 5 := by
  have h := c5_load_no_bounds_check (init (fun _ => 0)) (List.range 513)
  refine ⟨?_, ?_, ?_⟩
  · rw [h.2.1 (by simp)]
    decide
  · rw [h.2.2 (by simp)]
    decide
  · rw [h.1 5 (by simp)]
    decide

set_option maxRecDepth 100000 in
/-- C1 counterexample: with the reference offsets the claim fails for
inputs of length 257.  The device writes 7 to every output offset
(including `0x800 = OUTPUT_DATA_OFFSET + 256 * 4`, the command offset)
and sets the acknowledge flag, but `process` then writes `0x1` to the
command offset before draining, so element 256 of the returned list is
`1`, not the `7` the device wrote there. -/
theorem c1_counterexample :
    (process 1 (deviceSim (load_data (init (fun _ => 0)) (List.replicate 257 0))
        (List.replicate 257 7))).map (fun p => p.1.getD 256 0) = some 1 ∧
    (process 1 (deviceSim (load_data (init (fun _ => 0)) (List.replicate 257 0))
        (List.replicate 257 7))).map (fun p => p.1.getD 256 0) ≠ some 7 := by
  constructor
  · decide
  · decide

/-- C1 (amended): for every input of length at most 256 — so that the
output region touched by the device stays below the command offset —
loading it, letting the device write each output word and set the
acknowledge flag, and calling `process` returns exactly the sequence
the device wrote, in index order; the reference scenario with
`[0, …, 9]` and `output[i] = input[i] + 1` is an instance. -/
theorem c1_process_returns_device_output (s : my_new_accelerator)
    (data out : List Nat) (fuel : Nat) (hlen : out.length = data.length)
    (hn : data.length ≤ 256) (hfuel : 1 ≤ fuel) :
    process fuel (deviceSim (load_data s data) out) =
      some (out,
        { mem := mwrite (mwrite (deviceSim (load_data s data) out).mem
            CMD_OFFSET 0x1) ACK_OFFSET 0x0,
          array_length := data.length }) := by
  have hack : mread (deviceSim (load_data s data) out).mem ACK_OFFSET = 1 :=
    mread_mwrite_self _ _ _
  have hlen' : (deviceSim (load_data s data) out).array_length = out.length := by
    simp [deviceSim, load_data, hlen]
  have hdrain :
      drain (mwrite (deviceSim (load_data s data) out).mem CMD_OFFSET 0x1)
        (deviceSim (load_data s data) out).array_length = out := by
    rw [hlen']
    apply drain_eq_of_reads
    intro i hi
    have hilt : i < 256 := lt_of_lt_of_le (hlen ▸ hi) hn
    have h1 : OUTPUT_DATA_OFFSET + i * 4 ≠ CMD_OFFSET := by
      simp only [OUTPUT_DATA_OFFSET, CMD_OFFSET]
      omega
    have h2 : OUTPUT_DATA_OFFSET + i * 4 ≠ ACK_OFFSET := by
      simp only [OUTPUT_DATA_OFFSET, ACK_OFFSET]
      omega
    rw [mread_mwrite_of_ne _ _ _ _ h1]
    show mread (mwrite (writeSeq (load_data s data).mem OUTPUT_DATA_OFFSET out 0)
      ACK_OFFSET 1) (OUTPUT_DATA_OFFSET + i * 4) = out.getD i 0
    rw [mread_mwrite_of_ne _ _ _ _ h2]
    simpa [mread] using writeSeq_get OUTPUT_DATA_OFFSET out 0 i (load_data s data).mem hi
  rw [process_eq_some _ fuel hfuel hack, hdrain, hlen', hlen]

theorem c1_witness :
    process 1 (deviceSim (load_data (init (fun _ => 0))
        [0, 1, 2, 3, 4, 5, 6, 7, 8, 9]) [1, 2, 3, 4, 5, 6, 7, 8, 9, 10]) =
      some ([1, 2, 3, 4, 5, 6, 7, 8, 9, 10],
        { mem := mwrite (mwrite (deviceSim (load_data (init (fun _ => 0))
            [0, 1, 2, 3, 4, 5, 6, 7, 8, 9])
            [1, 2, 3, 4, 5, 6, 7, 8, 9, 10]).mem CMD_OFFSET 0x1) ACK_OFFSET 0x0,
          array_length := 10 }) :=
  c1_process_returns_device_output (init (fun _ => 0))
    [0, 1, 2, 3, 4, 5, 6, 7, 8, 9] [1, 2, 3, 4, 5, 6, 7, 8, 9, 10] 1
    (by decide) (by decide) (by decide)

/-- C4 counterexample: after `load_data [5]` followed by `load_data []`,
offset `0` of the input region still holds the leftover `5` from the
first call, while a single `load_data []` leaves the original `0`
there — the resulting state is not the one a single second load
produces. -/
theorem c4_counterexample :
    (load_data (load_data (init (fun _ => 0)) [5]) []).mem INPUT_DATA_OFFSET ≠
      (load_data (init (fun _ => 0)) []).mem INPUT_DATA_OFFSET := by
  decide

/-- C4 (amended): a second `load_data` before `process` overwrites the
stored length and re-writes input memory with no accumulation: the
stored `array_length` is that of the second sequence, and the state
agrees with a single second load everywhere except on leftover input
offsets of the first load beyond the second one's extent. -/
theorem c4_load_twice_last_write_wins (s : my_new_accelerator)
    (a b : List Nat) :
    (load_data (load_data s a) b).array_length = b.length ∧
    (∀ off, (∀ i, b.length ≤ i → i < a.length →
        off ≠ INPUT_DATA_OFFSET + i * 4) →
      (load_data (load_data s a) b).mem off = (load_data s b).mem off) := by
  refine ⟨rfl, ?_⟩
  intro off hoff
  by_cases hb : ∃ i, i < b.length ∧ off = INPUT_DATA_OFFSET + i * 4
  · obtain ⟨i, hi, rfl⟩ := hb
    show writeSeq (load_data s a).mem INPUT_DATA_OFFSET b 0
        (INPUT_DATA_OFFSET + i * 4) =
      writeSeq s.mem INPUT_DATA_OFFSET b 0 (INPUT_DATA_OFFSET + i * 4)
    have h1 := writeSeq_get INPUT_DATA_OFFSET b 0 i (load_data s a).mem hi
    have h2 := writeSeq_get INPUT_DATA_OFFSET b 0 i s.mem hi
    simp only [Nat.zero_add] at h1 h2
    rw [h1, h2]
  · push_neg at hb
    have hbframe : ∀ i, i < b.length → off ≠ INPUT_DATA_OFFSET + (0 + i) * 4 := by
      intro i hi
      have := hb i hi
      simpa using this
    have haframe : ∀ i, i < a.length → off ≠ INPUT_DATA_OFFSET + (0 + i) * 4 := by
      intro i hi
      by_cases hcase : i < b.length
      · simpa using hb i hcase
      · have := hoff i (by omega) hi
        simpa using this
    show writeSeq (load_data s a).mem INPUT_DATA_OFFSET b 0 off =
      writeSeq s.mem INPUT_DATA_OFFSET b 0 off
    rw [writeSeq_frame _ _ _ _ _ hbframe, writeSeq_frame _ _ _ _ _ hbframe]
    show writeSeq s.mem INPUT_DATA_OFFSET a 0 off = s.mem off
    exact writeSeq_frame _ _ _ _ _ haframe

theorem c4_witness :
    (load_data (load_data (my_new_accelerator.mk (fun _ => 0) 0) [1, 2]) [7]).array_length = 1 ∧
    (load_data (load_data (my_new_accelerator.mk (fun _ => 0) 0) [1, 2]) [7]).mem
        INPUT_DATA_OFFSET =
      (load_data (my_new_accelerator.mk (fun _ => 0) 0) [7]).mem INPUT_DATA_OFFSET :=
  ⟨(c4_load_twice_last_write_wins ⟨fun _ => 0, 0⟩ [1, 2] [7]).1,
   (c4_load_twice_last_write_wins ⟨fun _ => 0, 0⟩ [1, 2] [7]).2 INPUT_DATA_OFFSET
     (by intro i h1 h2; simp at h1 h2; simp only [INPUT_DATA_OFFSET]; omega)⟩

set_option maxRecDepth 100000 in
/-- C8 counterexample: `load_data` on a 257-element input writes element
256 at byte offset `0x400`, the start of the output-data region, so the
output region does not stay unchanged for every input sequence. -/
theorem c8_counterexample :
    (load_data (init (fun _ => 0)) (List.replicate 257 9)).mem OUTPUT_DATA_OFFSET ≠
      (init (fun _ => 0)).mem OUTPUT_DATA_OFFSET := by
  decide

/-- C8 (amended): for inputs of at most 256 elements — those that fit
the input region — `load_data` writes element `i` to
`INPUT_DATA_OFFSET + i * 4`, records the length, issues no command, and
leaves the command register, the acknowledge register and the whole
output region unchanged. -/
theorem c8_load_frame (s : my_new_accelerator) (data : List Nat)
    (hn : data.length ≤ 256) :
    (load_data s data).array_length = data.length ∧
    (∀ i, i < data.length →
      (load_data s data).mem (INPUT_DATA_OFFSET + i * 4) = data.getD i 0) ∧
    mread (load_data s data).mem CMD_OFFSET = mread s.mem CMD_OFFSET ∧
    mread (load_data s data).mem ACK_OFFSET = mread s.mem ACK_OFFSET ∧
    (∀ off, OUTPUT_DATA_OFFSET ≤ off → off < CMD_OFFSET →
      mread (load_data s data).mem off = mread s.mem off) := by
  have hframe : ∀ off, (∀ i, i < data.length →
      off ≠ INPUT_DATA_OFFSET + (0 + i) * 4) →
      mread (load_data s data).mem off = mread s.mem off := by
    intro off h
    show writeSeq s.mem INPUT_DATA_OFFSET data 0 off = s.mem off
    exact writeSeq_frame _ _ _ _ _ h
  refine ⟨rfl, ?_, ?_, ?_, ?_⟩
  · intro i hi
    show writeSeq s.mem INPUT_DATA_OFFSET data 0 (INPUT_DATA_OFFSET + i * 4) =
      data.getD i 0
    simpa using writeSeq_get INPUT_DATA_OFFSET data 0 i s.mem hi
  · apply hframe
    intro i hi
    have : i < 256 := by omega
    simp only [CMD_OFFSET, INPUT_DATA_OFFSET]
    omega
  · apply hframe
    intro i hi
    have : i < 256 := by omega
    simp only [ACK_OFFSET, INPUT_DATA_OFFSET]
    omega
  · intro off h1 h2
    apply hframe
    intro i hi
    have : i < 256 := by omega
    simp only [OUTPUT_DATA_OFFSET, INPUT_DATA_OFFSET] at h1 ⊢
    omega

theorem c8_witness :
    (load_data (my_new_accelerator.mk (fun _ => 3) 0) [4, 5]).array_length = 2 ∧
    (load_data (my_new_accelerator.mk (fun _ => 3) 0) [4, 5]).mem
      (INPUT_DATA_OFFSET + 1 * 4) = 5 ∧
    mread (load_data (my_new_accelerator.mk (fun _ => 3) 0) [4, 5]).mem CMD_OFFSET =
      mread (my_new_accelerator.mk (fun _ => 3) 0).mem CMD_OFFSET ∧
    mread (load_data (my_new_accelerator.mk (fun _ => 3) 0) [4, 5]).mem
        OUTPUT_DATA_OFFSET =
      mread (my_new_accelerator.mk (fun _ => 3) 0).mem OUTPUT_DATA_OFFSET :=
  ⟨(c8_load_frame ⟨fun _ => 3, 0⟩ [4, 5] (by decide)).1,
   (c8_load_frame ⟨fun _ => 3, 0⟩ [4, 5] (by decide)).2.1 1 (by decide),
   (c8_load_frame ⟨fun _ => 3, 0⟩ [4, 5] (by decide)).2.2.1,
   (c8_load_frame ⟨fun _ => 3, 0⟩ [4, 5] (by decide)).2.2.2.2 OUTPUT_DATA_OFFSET
     (by decide) (by decide)⟩
